import Mathlib

/-!
Verification of the reconciliation-engine specification of this repository.

The crate under `src/` is the facade crate: it only re-exports the engine
crates (`dioxus_core`, `dioxus_hooks`, ...) behind feature gates.  The
reconciliation engine itself (node model, diff engine, hook slots,
scheduler, arena) is therefore modelled here from the specification, and
the facade's feature-gated surface is embedded from `src/src/lib.rs`.
-/

namespace DioxusCore

/-- Modelled from the spec: the Node data model (spec section 3).  The engine
crate is not under `src/`, so the node variants are taken from the spec:
`Text(string)`, `Element{tag, attributes, key, children}` and `Placeholder`
(used for suspended subtrees).  Listeners are opaque handler references with
no mutation variant of their own, and `Fragment`/`Component` nodes are
consumed at the scope layer before structural diffing, so they are not part
of the structural tree handed to the diff engine here.  Attributes are an
ordered sequence of key/value pairs; the diff engine compares them as a map
(spec section 4.3), so accepted trees keep them in canonical key order (see
`Wf`). -/
inductive Node where
  | text (s : String)
  | element (tag : String) (key : Option String)
      (attrs : List (String × String)) (children : List Node)
  | placeholder

/-- Modelled from the spec: the explicit diffing key of a node; only elements
carry an explicit key. -/
def Node.key : Node → Option String
  | .element _ k _ _ => k
  | _ => none

/-- Modelled from the spec: the mutation instruction set emitted by the diff
engine (spec section 3): `CreateNode`, `ReplaceWith`, `Remove`,
`SetAttribute`, `RemoveAttribute`, `SetText`, `MoveBefore`.  Nodes are
referenced by stable handles; the handle of a child-list position is modelled
as the index argument, and `createNode` carries the full description of the
subtree to build (the spec's `CreateNode(desc)` plus the attach). -/
inductive MOp where
  | createNode (idx : Nat) (desc : Node)
  | setText (s : String)
  | setAttribute (k v : String)
  | removeAttribute (k : String)
  | replaceWith (n : Node)
  | remove (idx : Nat)
  | moveBefore (src dst : Nat)

/-- Modelled from the spec: a mutation references its target node by a stable
handle; the handle is modelled as the access path (list of child indices)
from the root of the diffed subtree. -/
structure Mutation where
  path : List Nat
  op : MOp

/-- Modelled from the spec: error taxonomy of the diff engine (spec
section 7); `DuplicateKey` is recoverable and reported as a warning. -/
inductive DiffError where
  | duplicateKey
deriving DecidableEq, Repr

/-- Insert an element at a position in a list (renderer-side child
insertion); inserting past the end appends. -/
def listInsertAt (n : Nat) (a : α) : List α → List α
  | [] => [a]
  | x :: xs =>
    match n with
    | 0 => a :: x :: xs
    | n + 1 => x :: listInsertAt n a xs

/-- Modelled from the spec: renderer-side application of `SetAttribute` to
the attribute map of an element, keeping the canonical key order: insert in
key order, replacing the value when the key is already present. -/
def insertAttr (k v : String) : List (String × String) → List (String × String)
  | [] => [(k, v)]
  | a :: as =>
    if k < a.1 then (k, v) :: a :: as
    else if k = a.1 then (k, v) :: as
    else a :: insertAttr k v as

/-- Modelled from the spec: renderer-side application of `RemoveAttribute`:
drop every pair with the removed key. -/
def removeAttr (k : String) (as : List (String × String)) : List (String × String) :=
  as.filter (fun a => a.1 ≠ k)

/-- Modelled from the spec: the renderer-side meaning of one mutation opcode
applied at its target node.  Type-mismatched applications (such as `SetText`
on an element) fail with `none` rather than exhibiting undefined
behavior. -/
def applyOp : MOp → Node → Option Node
  | .setText s, .text _ => some (.text s)
  | .setText _, _ => none
  | .setAttribute k v, .element tg ky as cs => some (.element tg ky (insertAttr k v as) cs)
  | .setAttribute _ _, _ => none
  | .removeAttribute k, .element tg ky as cs => some (.element tg ky (removeAttr k as) cs)
  | .removeAttribute _, _ => none
  | .replaceWith n, _ => some n
  | .createNode i d, .element tg ky as cs => some (.element tg ky as (listInsertAt i d cs))
  | .createNode _ _, _ => none
  | .remove i, .element tg ky as cs => some (.element tg ky as (cs.eraseIdx i))
  | .remove _, _ => none
  | .moveBefore src dst, .element tg ky as cs =>
    match cs[src]? with
    | some c => some (.element tg ky as (listInsertAt dst c (cs.eraseIdx src)))
    | none => none
  | .moveBefore _ _, _ => none

/-- Modelled from the spec: apply an opcode at the node addressed by a handle
path, rebuilding the spine of the tree. -/
def applyAt : List Nat → MOp → Node → Option Node
  | [], op, t => applyOp op t
  | j :: p, op, .element tg ky as cs =>
    match cs[j]? with
    | some c =>
      match applyAt p op c with
      | some c' => some (.element tg ky as (cs.set j c'))
      | none => none
    | none => none
  | _ :: _, _, _ => none

/-- Modelled from the spec: apply one mutation to the model of the tree. -/
def applyMut (m : Mutation) (t : Node) : Option Node :=
  applyAt m.path m.op t

/-- Modelled from the spec: apply an ordered mutation sequence to the model
of the tree, in emission order, failing if any single mutation fails. -/
def applyMuts : List Mutation → Node → Option Node
  | [], t => some t
  | m :: ms, t =>
    match applyMut m t with
    | some t' => applyMuts ms t'
    | none => none

/-- Re-address a mutation emitted for the child at index `j` so that it is
expressed relative to the parent. -/
def Mutation.prepend (j : Nat) (m : Mutation) : Mutation :=
  ⟨j :: m.path, m.op⟩

/-- Modelled from the spec: attribute-map diffing (spec section 4.4 step 3):
emit `SetAttribute`/`RemoveAttribute` only for changed, added or removed
keys — an unordered key comparison, not a full replace.  Both maps are kept
in canonical key order, so the comparison is a sorted merge. -/
def mergeDiffAttrs : List (String × String) → List (String × String) → List Mutation
  | [], [] => []
  | a :: as, [] => ⟨[], .removeAttribute a.1⟩ :: mergeDiffAttrs as []
  | [], b :: bs => ⟨[], .setAttribute b.1 b.2⟩ :: mergeDiffAttrs [] bs
  | a :: as, b :: bs =>
    if a.1 < b.1 then ⟨[], .removeAttribute a.1⟩ :: mergeDiffAttrs as (b :: bs)
    else if b.1 < a.1 then ⟨[], .setAttribute b.1 b.2⟩ :: mergeDiffAttrs (a :: as) bs
    else (if a.2 = b.2 then [] else [⟨[], .setAttribute b.1 b.2⟩]) ++ mergeDiffAttrs as bs

/-- Whether every child of a sibling list declares an explicit key (spec
section 4.4 step 6: children are matched by key when every child declares
one). -/
def allKeyed (cs : List Node) : Bool :=
  cs.all fun c => c.key.isSome

/-- The sequence of explicit keys of a sibling list. -/
def keysOf (cs : List Node) : List String :=
  cs.filterMap Node.key

/-- Find the first node with the given explicit key in the not-yet-matched
old children, returning its position among them. -/
def findKeyed (k : Option String) : List Node → Option (Nat × Node)
  | [] => none
  | c :: cs =>
    if c.key = k then some (0, c)
    else (findKeyed k cs).map fun p => (p.1 + 1, p.2)

mutual

/-- Modelled from the spec: the diff engine (spec section 4.4).  Given the
old and the new node at one tree position it emits the mutation sequence
transforming the one into the other: `SetText` for changed text, keyed map
diff plus child-list diff for same-tag same-key elements, `ReplaceWith` when
types, tags or keys differ.  Child lists where every child declares a key
are matched by key (duplicate keys are reported as `DuplicateKey` and the
list falls back to positional matching); other lists are matched
positionally.  The spec leaves the keyed reorder-minimization algorithm
open (section 9: any algorithm that never recreates keyed nodes on a pure
reorder); the model moves each keyed match directly before the already
matched prefix, skipping nodes that are already in place. -/
def diffNode (old new : Node) : List Mutation × List DiffError :=
  match old, new with
  | .text s, .text s' =>
    if s = s' then ([], []) else ([⟨[], .setText s'⟩], [])
  | .placeholder, .placeholder => ([], [])
  | .element tg ky as cs, .element tg' ky' as' cs' =>
    if tg = tg' ∧ ky = ky' then
      let am := mergeDiffAttrs as as'
      let cm :=
        if allKeyed cs && allKeyed cs' then
          if (keysOf cs).Nodup ∧ (keysOf cs').Nodup then diffKeyed 0 cs cs'
          else
            let pd := diffPositional 0 cs cs'
            (pd.1, .duplicateKey :: pd.2)
        else diffPositional 0 cs cs'
      (am ++ cm.1, cm.2)
    else ([⟨[], .replaceWith new⟩], [])
  | _, _ => ([⟨[], .replaceWith new⟩], [])

/-- Modelled from the spec: keyed child-list diffing.  `j` counts the new
children already matched (they occupy positions `0..j` of the evolving child
list), `rest` is the old children not yet matched, in their current order.
Each new child found in `rest` is moved before the matched prefix (unless
already in place) and recursively diffed; keys present only in the new list
are created; old children left over at the end are removed. -/
def diffKeyed (j : Nat) (rest news : List Node) : List Mutation × List DiffError :=
  match news with
  | [] => (List.replicate rest.length ⟨[], .remove j⟩, [])
  | n :: news' =>
    match findKeyed n.key rest with
    | some rc =>
      let mv : List Mutation :=
        if rc.1 = 0 then [] else [⟨[], .moveBefore (j + rc.1) j⟩]
      let cd := diffNode rc.2 n
      let rec' := diffKeyed (j + 1) (rest.eraseIdx rc.1) news'
      (mv ++ cd.1.map (Mutation.prepend j) ++ rec'.1, cd.2 ++ rec'.2)
    | none =>
      let rec' := diffKeyed (j + 1) rest news'
      (⟨[], .createNode j n⟩ :: rec'.1, rec'.2)

/-- Modelled from the spec: positional child-list matching; pairs are diffed
in place, surplus old children are removed and surplus new children are
created. -/
def diffPositional (j : Nat) (olds news : List Node) : List Mutation × List DiffError :=
  match olds, news with
  | olds, [] => (List.replicate olds.length ⟨[], .remove j⟩, [])
  | [], n :: news' =>
    let rec' := diffPositional (j + 1) [] news'
    (⟨[], .createNode j n⟩ :: rec'.1, rec'.2)
  | o :: olds', n :: news' =>
    let cd := diffNode o n
    let rec' := diffPositional (j + 1) olds' news'
    (cd.1.map (Mutation.prepend j) ++ rec'.1, cd.2 ++ rec'.2)

end

/-- Modelled from the spec: the trees the diff algorithm accepts.  Attribute
sequences are attribute maps kept in canonical (strictly increasing) key
order — the spec diffs them by unordered key comparison while node equality
is structural, so accepted trees keep the unique canonical representation of
each attribute map. -/
inductive Wf : Node → Prop
  | text (s : String) : Wf (.text s)
  | placeholder : Wf .placeholder
  | element (tg : String) (ky : Option String) (as' : List (String × String))
      (cs : List Node)
      (hs : as'.Pairwise fun a b => a.1 < b.1)
      (hc : ∀ c ∈ cs, Wf c) : Wf (.element tg ky as' cs)

/-- Modelled from the spec: hook slots are heterogeneous and type-erased at
storage but type-checked at each call site (spec section 3); the stored
values are modelled by a closed universe with a runtime type tag. -/
inductive HTy where
  | tNat
  | tStr
  | tBool
deriving DecidableEq, Repr

/-- Modelled from the spec: a type-erased hook slot value. -/
inductive HVal where
  | vNat (n : Nat)
  | vStr (s : String)
  | vBool (b : Bool)
deriving DecidableEq, Repr

/-- Runtime type tag of a stored slot value. -/
def HVal.ty : HVal → HTy
  | .vNat _ => .tNat
  | .vStr _ => .tStr
  | .vBool _ => .tBool

/-- Modelled from the spec: error taxonomy of the hook mechanism (spec
section 7): `HookTypeMismatch` is a contract violation by the component
author, fatal to that scope's render only. -/
inductive HookError where
  | hookTypeMismatch
deriving DecidableEq, Repr

/-- Modelled from the spec: the durable, positionally addressed slot storage
of one scope, surviving across renders. -/
structure ScopeStore where
  slots : List HVal
deriving DecidableEq, Repr

/-- Modelled from the spec: `use_hook(init)` (spec section 4.3): on the first
call for a slot position it runs `init` and stores the result in the next
free slot; on subsequent renders it returns the existing slot's value.  It
fails with `HookTypeMismatch` when the stored slot's type differs from the
requested one.  The returned `Nat` is the handle of the underlying slot
storage (its position in the scope's slot sequence). -/
def useHook (st : ScopeStore) (cursor : Nat) (req : HTy) (init : HVal) :
    Except HookError (Nat × HVal × ScopeStore) :=
  match st.slots[cursor]? with
  | some v => if v.ty = req then .ok (cursor, v, st) else .error .hookTypeMismatch
  | none => .ok (cursor, init, ⟨st.slots ++ [init]⟩)

/-- Modelled from the spec: one render of a component against its scope: the
hook calls of the component body, in call order, each one a requested type
together with the init value it would store.  Returns, per call, the slot
handle and value the call returned, plus the final store. -/
def runHooks : List (HTy × HVal) → ScopeStore → Nat →
    Except HookError (List (Nat × HVal) × ScopeStore)
  | [], st, _ => .ok ([], st)
  | c :: calls, st, cur =>
    match useHook st cur c.1 c.2 with
    | .error e => .error e
    | .ok (i, v, st') =>
      match runHooks calls st' (cur + 1) with
      | .error e => .error e
      | .ok (rs, st'') => .ok ((i, v) :: rs, st'')

/-- Modelled from the spec: a full render starts at hook cursor zero. -/
def renderScope (prog : List (HTy × HVal)) (st : ScopeStore) :
    Except HookError (List (Nat × HVal) × ScopeStore) :=
  runHooks prog st 0

/-- Modelled from the spec: a mounted component instance as the render pass
sees it: its hook-call program and its scope's slot storage. -/
structure ScopeDef where
  prog : List (HTy × HVal)
  store : ScopeStore

/-- Modelled from the spec: the outcome of rendering one scope; a failed
scope renders as empty with its error surfaced to host logging (spec
section 7), it does not crash the rest of the tree. -/
inductive ScopeOutput where
  | rendered (results : List (Nat × HVal)) (store : ScopeStore)
  | failed (e : HookError)

/-- Modelled from the spec: render one scope, absorbing a hook failure into
that scope's own output. -/
def renderOne (sd : ScopeDef) : ScopeOutput :=
  match renderScope sd.prog sd.store with
  | .ok (rs, st) => .rendered rs st
  | .error e => .failed e

/-- Modelled from the spec: a render pass over sibling scopes; each scope is
rendered independently. -/
def renderPass (scopes : List ScopeDef) : List ScopeOutput :=
  scopes.map renderOne

/-- Modelled from the spec: per-scope scheduler states (spec section 4.5):
`Clean`, `Dirty`, `Rendering`, `Suspended(pending_count)`. -/
inductive ScopeSt where
  | clean
  | dirty
  | rendering
  | suspended (pending : Nat)
deriving DecidableEq, Repr

/-- Modelled from the spec: what invoking a component function produces in a
pass: either a completed subtree diff (its mutation list) or a suspension
with a pending async count. -/
inductive RenderResult where
  | completed (muts : List Mutation)
  | suspends (pending : Nat)

/-- Modelled from the spec: one sibling component as the scheduler sees it:
its current state and what its function produces when invoked this pass. -/
structure SchedScope where
  state : ScopeSt
  render : RenderResult

/-- Modelled from the spec: the scheduler invokes a dirty scope; a completing
scope commits its mutations and becomes clean, a suspending scope commits a
`Placeholder` substitution for its subtree (at sibling position `i`) and
becomes `Suspended`; non-dirty scopes are skipped. -/
def runScope (i : Nat) (s : SchedScope) : List Mutation × ScopeSt :=
  match s.state with
  | .dirty =>
    match s.render with
    | .completed ms => (ms, .clean)
    | .suspends n => ([⟨[i], .replaceWith .placeholder⟩], .suspended n)
  | st => ([], st)

/-- Modelled from the spec: process the sibling scopes in tree order from
sibling index `i`, merging the per-scope mutation lists in order. -/
def passFrom (i : Nat) : List SchedScope → List Mutation × List SchedScope
  | [] => ([], [])
  | s :: ss =>
    let r := runScope i s
    let rest := passFrom (i + 1) ss
    (r.1 ++ rest.1, { s with state := r.2 } :: rest.2)

/-- Modelled from the spec: one scheduler pass over a sibling list: render
each dirty scope independently, merge their mutation lists in tree order,
and update the scope states. -/
def schedulerPass (scopes : List SchedScope) : List Mutation × List SchedScope :=
  passFrom 0 scopes

/-- Modelled from the spec: `mark_dirty(scope_id)`, as called by a completed
async task: re-enqueues the scope for the next scheduling pass. -/
def markDirtyAt : List SchedScope → Nat → List SchedScope
  | [], _ => []
  | s :: ss, 0 => { s with state := .dirty } :: ss
  | s :: ss, n + 1 => s :: markDirtyAt ss n

/-- Modelled from the spec: a stable arena handle: the generation it was
allocated in plus its slab index (spec section 4.2). -/
structure Handle where
  gen : Nat
  idx : Nat
deriving DecidableEq, Repr

/-- Modelled from the spec: `StaleHandle` — dereferencing a handle of a
retired generation fails with this error rather than undefined behavior. -/
inductive ArenaError where
  | staleHandle
deriving DecidableEq, Repr

/-- Modelled from the spec: the generation store: one slab of node/scope
data per generation plus the set of retired generation ids. -/
structure GenStore where
  slabs : List (List String)
  retired : List Nat
deriving DecidableEq, Repr

/-- Bump-allocate a value at the end of the slab of generation `g`. -/
def appendSlab : List (List String) → Nat → String → List (List String)
  | [], _, _ => []
  | s :: ss, 0, v => (s ++ [v]) :: ss
  | s :: ss, g + 1, v => s :: appendSlab ss g v

/-- Modelled from the spec: `retire_generation(gen_id)` marks a generation
retired, invalidating every handle allocated in it. -/
def retireGeneration (st : GenStore) (g : Nat) : GenStore :=
  { st with retired := g :: st.retired }

/-- Modelled from the spec: the operations later engine passes may perform
on the store: bump allocation into a generation and retirement of a
generation; retirement is never undone. -/
inductive ArenaOp where
  | allocateNode (g : Nat) (v : String)
  | retire (g : Nat)

/-- Apply one arena operation. -/
def applyArenaOp (st : GenStore) : ArenaOp → GenStore
  | .allocateNode g v => { st with slabs := appendSlab st.slabs g v }
  | .retire g => retireGeneration st g

/-- Apply a sequence of later arena operations. -/
def applyArenaOps (st : GenStore) : List ArenaOp → GenStore
  | [] => st
  | op :: ops => applyArenaOps (applyArenaOp st op) ops

/-- Modelled from the spec: dereference a handle: a handle of a retired
generation fails with `StaleHandle`; otherwise the stored value (if the
handle is in range) is returned. -/
def deref (st : GenStore) (h : Handle) : Except ArenaError (Option String) :=
  if h.gen ∈ st.retired then .error .staleHandle
  else .ok (st.slabs[h.gen]?.bind fun slab => slab[h.idx]?)

/-- Modelled from the spec: the state of the single-threaded cooperative
scheduler (spec section 5): the one slot holding the scope currently being
rendered, plus the per-scope state machine states. -/
structure SchedSys where
  current : Option Nat
  states : Nat → ScopeSt

/-- Modelled from the spec: initially every scope is clean and nothing is
rendering. -/
def initSys : SchedSys :=
  ⟨none, fun _ => .clean⟩

/-- Modelled from the spec: the scheduler's transition relation (spec
sections 4.5 and 5).  External events mark a non-rendering scope dirty; the
single scheduling loop begins rendering a dirty scope only between component
boundaries (its one `current` slot is free); a render segment always runs to
completion, ending in `Clean` (committed) or `Suspended` (placeholder
substituted).  All state transitions are owned by the one scheduler, so
concurrency is interleaving of these steps, never parallel execution. -/
inductive SchedStep : SchedSys → SchedSys → Prop where
  | extMarkDirty (s : SchedSys) (i : Nat)
      (h : s.states i = .clean ∨ ∃ n, s.states i = .suspended n) :
      SchedStep s ⟨s.current, Function.update s.states i .dirty⟩
  | beginRender (s : SchedSys) (i : Nat) (hc : s.current = none)
      (hd : s.states i = .dirty) :
      SchedStep s ⟨some i, Function.update s.states i .rendering⟩
  | commitRender (s : SchedSys) (i : Nat) (hc : s.current = some i) :
      SchedStep s ⟨none, Function.update s.states i .clean⟩
  | suspendRender (s : SchedSys) (i : Nat) (n : Nat) (hc : s.current = some i) :
      SchedStep s ⟨none, Function.update s.states i (.suspended n)⟩

/-- Modelled from the spec: the reachable scheduler states. -/
inductive SchedReachable : SchedSys → Prop where
  | init : SchedReachable initSys
  | step {s s' : SchedSys} : SchedReachable s → SchedStep s s' → SchedReachable s'

/-- The feature flags of the facade crate that gate its re-exports
(src/src/lib.rs). -/
structure Features where
  hooks : Bool
  router : Bool
  ssr : Bool
  web : Bool
  desktop : Bool
  html : Bool
deriving DecidableEq, Repr

/-- Which modules and re-exported item groups the facade crate surface
contains for a given build. -/
structure FacadeSurface where
  coreExport : Bool
  hooksMod : Bool
  routerMod : Bool
  ssrMod : Bool
  webMod : Bool
  desktopMod : Bool
  eventsMod : Bool
  eventsHtmlItems : Bool
  preludeMod : Bool
  preludeCoreItems : Bool
  preludeRsxItems : Bool
  preludeHookItems : Bool
  preludeHtmlItems : Bool
deriving DecidableEq, Repr

/-- Embedding of the cfg-gated re-export surface of the facade crate
(src/src/lib.rs lines 326-357): the `core` re-export and the `events` and
`prelude` modules are unconditional; the `hooks`, `router`, `ssr`, `web` and
`desktop` re-exports exist only behind their feature flags; the contents of
`events` are behind the `html` flag; the prelude glob-re-exports
dioxus_core's prelude, the dioxus_core_macro items, dioxus_hooks and
dioxus_html without any feature gate. -/
def facade (f : Features) : FacadeSurface where
  coreExport := true
  hooksMod := f.hooks
  routerMod := f.router
  ssrMod := f.ssr
  webMod := f.web
  desktopMod := f.desktop
  eventsMod := true
  eventsHtmlItems := f.html
  preludeMod := true
  preludeCoreItems := true
  preludeRsxItems := true
  preludeHookItems := true
  preludeHtmlItems := true

/-- Sample keyed list item carrying explicit key "a", for concrete checks. -/
def sampleA : Node := .element "li" (some "a") [] []

/-- Sample keyed list item carrying explicit key "b", for concrete checks. -/
def sampleB : Node := .element "li" (some "b") [] []

/-- Sample keyed list item carrying explicit key "c", for concrete checks. -/
def sampleC : Node := .element "li" (some "c") [] []

/-- Sample keyed list item carrying explicit key "x", for concrete checks. -/
def sampleX : Node := .element "li" (some "x") [] []

/-! ## List position helper lemmas -/

theorem getElem?_append_len {α : Type} (l₁ l₂ : List α) (r : Nat) :
    (l₁ ++ l₂)[l₁.length + r]? = l₂[r]? := by
  rw [List.getElem?_append_right (by omega)]
  simp

theorem getElem?_append_self {α : Type} (l₁ l₂ : List α) (a : α) :
    (l₁ ++ a :: l₂)[l₁.length]? = some a := by
  have := getElem?_append_len l₁ (a :: l₂) 0
  simpa using this

theorem eraseIdx_append_len {α : Type} (l₁ l₂ : List α) (r : Nat) :
    (l₁ ++ l₂).eraseIdx (l₁.length + r) = l₁ ++ l₂.eraseIdx r := by
  induction l₁ with
  | nil => simp
  | cons x xs ih =>
    have hsucc : (x :: xs).length + r = (xs.length + r) + 1 := by simp; omega
    simp only [List.cons_append, hsucc, List.eraseIdx_cons_succ, ih]

theorem eraseIdx_append_self {α : Type} (l₁ l₂ : List α) (a : α) :
    (l₁ ++ a :: l₂).eraseIdx l₁.length = l₁ ++ l₂ := by
  have := eraseIdx_append_len l₁ (a :: l₂) 0
  simpa using this

theorem listInsertAt_append {α : Type} (l₁ l₂ : List α) (a : α) :
    listInsertAt l₁.length a (l₁ ++ l₂) = l₁ ++ a :: l₂ := by
  induction l₁ with
  | nil => cases l₂ <;> simp [listInsertAt]
  | cons x xs ih => simpa [listInsertAt] using ih

theorem set_append_len {α : Type} (l₁ l₂ : List α) (a b : α) :
    (l₁ ++ a :: l₂).set l₁.length b = l₁ ++ b :: l₂ := by
  induction l₁ with
  | nil => simp
  | cons x xs ih => simpa using ih

theorem append_singleton_cons {α : Type} (l₁ l₂ : List α) (x : α) :
    (l₁ ++ [x]) ++ l₂ = l₁ ++ x :: l₂ := by
  simp

/-! ## Mutation application infrastructure -/

theorem applyMuts_append (xs ys : List Mutation) (t : Node) :
    applyMuts (xs ++ ys) t = (applyMuts xs t).bind fun t' => applyMuts ys t' := by
  induction xs generalizing t with
  | nil => simp [applyMuts]
  | cons m ms ih =>
    simp only [List.cons_append, applyMuts]
    cases applyMut m t <;> simp [ih]

/-- Mutations emitted for the child at position `done.length` act exactly on
that child while the siblings are untouched. -/
theorem applyMuts_localize (ms : List Mutation) (tg : String) (ky : Option String)
    (as' : List (String × String)) (done rest : List Node) (c : Node) :
    applyMuts (ms.map (Mutation.prepend done.length))
        (.element tg ky as' (done ++ c :: rest)) =
      (applyMuts ms c).map fun c' => .element tg ky as' (done ++ c' :: rest) := by
  induction ms generalizing c with
  | nil => simp [applyMuts]
  | cons m ms ih =>
    simp only [List.map_cons, applyMuts, applyMut, Mutation.prepend, applyAt]
    rw [getElem?_append_self]
    cases hc : applyAt m.path m.op c with
    | none => simp [hc]
    | some c₁ => simp [hc, set_append_len, ih c₁]

/-! ## Attribute map lemmas -/

theorem mergeDiffAttrs_self (l : List (String × String)) : mergeDiffAttrs l l = [] := by
  induction l with
  | nil => simp [mergeDiffAttrs]
  | cons a as ih => simp [mergeDiffAttrs, ih]

theorem insertAttr_append (k v : String) (pre suf : List (String × String))
    (hpre : ∀ x ∈ pre, x.1 < k) (hsuf : ∀ x ∈ suf, k < x.1) :
    insertAttr k v (pre ++ suf) = pre ++ (k, v) :: suf := by
  induction pre with
  | nil =>
    cases suf with
    | nil => rfl
    | cons b bs =>
      have hb : k < b.1 := hsuf b (by simp)
      simp [insertAttr, hb]
  | cons a pre ih =>
    have ha : a.1 < k := hpre a (by simp)
    have h1 : ¬ k < a.1 := not_lt_of_gt ha
    have h2 : ¬ k = a.1 := fun h => absurd ha (by simp [h])
    simp [insertAttr, h1, h2, ih fun x hx => hpre x (by simp [hx])]

theorem insertAttr_replace (k v : String) (pre suf : List (String × String))
    (a : String × String) (hpre : ∀ x ∈ pre, x.1 < k) (ha : a.1 = k) :
    insertAttr k v (pre ++ a :: suf) = pre ++ (k, v) :: suf := by
  induction pre with
  | nil => simp [insertAttr, ha]
  | cons b pre ih =>
    have hb : b.1 < k := hpre b (by simp)
    have h1 : ¬ k < b.1 := not_lt_of_gt hb
    have h2 : ¬ k = b.1 := fun h => absurd hb (by simp [h])
    simp [insertAttr, h1, h2, ih fun x hx => hpre x (by simp [hx])]

theorem removeAttr_middle (k : String) (pre suf : List (String × String))
    (a : String × String) (hpre : ∀ x ∈ pre, x.1 ≠ k) (hsuf : ∀ x ∈ suf, x.1 ≠ k)
    (ha : a.1 = k) :
    removeAttr k (pre ++ a :: suf) = pre ++ suf := by
  simp only [removeAttr, List.filter_append, List.filter_cons]
  rw [List.filter_eq_self.mpr (by simpa using hpre),
    List.filter_eq_self.mpr (by simpa using hsuf)]
  simp [ha]

/-- Cross condition of a pairwise-sorted append. -/
theorem pairwise_append_cross {α : Type} {R : α → α → Prop} {l₁ l₂ : List α}
    (h : (l₁ ++ l₂).Pairwise R) : ∀ a ∈ l₁, ∀ b ∈ l₂, R a b :=
  (List.pairwise_append.mp h).2.2

/-- Applying the merge-diff of two canonical attribute maps rewrites the
attributes of an element to the new map, for any common sorted prefix
already in place. -/
theorem merge_roundtrip (olds news : List (String × String)) :
    ∀ (done : List (String × String)) (tg : String) (ky : Option String)
      (cs : List Node),
      ((done ++ olds).Pairwise fun a b => a.1 < b.1) →
      ((done ++ news).Pairwise fun a b => a.1 < b.1) →
      applyMuts (mergeDiffAttrs olds news) (.element tg ky (done ++ olds) cs) =
        some (.element tg ky (done ++ news) cs) := by
  induction olds, news using mergeDiffAttrs.induct with
  | case1 =>
    intro done tg ky cs h₁ h₂
    simp [mergeDiffAttrs, applyMuts]
  | case2 a as ih =>
    intro done tg ky cs h₁ h₂
    have hrm : removeAttr a.1 (done ++ a :: as) = done ++ as := by
      refine removeAttr_middle _ _ _ _ ?_ ?_ rfl
      · exact fun x hx => ne_of_lt (pairwise_append_cross h₁ x hx a (by simp))
      · intro x hx
        have := (List.pairwise_append.mp h₁).2.1
        exact (ne_of_lt (List.rel_of_pairwise_cons this hx)).symm
    have h₁' : ((done ++ as).Pairwise fun a b => a.1 < b.1) :=
      h₁.sublist ((List.sublist_cons_self a as).append_left done)
    simp only [mergeDiffAttrs, applyMuts, applyMut, applyAt, applyOp, hrm]
    exact ih done tg ky cs h₁' h₂
  | case3 b bs ih =>
    intro done tg ky cs h₁ h₂
    have hdone : ∀ x ∈ done, x.1 < b.1 := fun x hx => pairwise_append_cross h₂ x hx b (by simp)
    have hins : insertAttr b.1 b.2 (done ++ []) = done ++ [b] := by
      rw [insertAttr_append b.1 b.2 done [] hdone (by simp)]
    have h₁' : (((done ++ [b]) ++ ([] : List (String × String))).Pairwise
        fun x y => x.1 < y.1) := by
      simp only [List.append_nil]
      exact h₂.sublist (((List.nil_sublist bs).cons₂ b).append_left done)
    have h₂' : (((done ++ [b]) ++ bs).Pairwise fun x y => x.1 < y.1) := by
      rw [append_singleton_cons]
      exact h₂
    have hrec := ih (done ++ [b]) tg ky cs h₁' h₂'
    simp only [mergeDiffAttrs, applyMuts, applyMut, applyAt, applyOp, hins]
    simpa [append_singleton_cons] using hrec
  | case4 a as b bs hlt ih =>
    intro done tg ky cs h₁ h₂
    have hdone : ∀ x ∈ done, x.1 < a.1 := fun x hx => pairwise_append_cross h₁ x hx a (by simp)
    have hwithin : ((a :: as).Pairwise fun x y => x.1 < y.1) := (List.pairwise_append.mp h₁).2.1
    have hrm : removeAttr a.1 (done ++ a :: as) = done ++ as :=
      removeAttr_middle _ _ _ _ (fun x hx => ne_of_lt (hdone x hx))
        (fun x hx => (ne_of_lt (List.rel_of_pairwise_cons hwithin hx)).symm) rfl
    have h₁' : ((done ++ as).Pairwise fun x y => x.1 < y.1) :=
      h₁.sublist ((List.sublist_cons_self a as).append_left done)
    simp only [mergeDiffAttrs, hlt, if_true, applyMuts, applyMut, applyAt, applyOp, hrm]
    exact ih done tg ky cs h₁' h₂
  | case5 a as b bs hnlt hlt ih =>
    intro done tg ky cs h₁ h₂
    have hdone : ∀ x ∈ done, x.1 < b.1 := fun x hx => pairwise_append_cross h₂ x hx b (by simp)
    have holds : ((a :: as).Pairwise fun x y => x.1 < y.1) := (List.pairwise_append.mp h₁).2.1
    have hsuf : ∀ x ∈ a :: as, b.1 < x.1 := by
      intro x hx
      rcases List.mem_cons.mp hx with h | h
      · rw [h]; exact hlt
      · exact hlt.trans (List.rel_of_pairwise_cons holds h)
    have hins : insertAttr b.1 b.2 (done ++ a :: as) = done ++ b :: a :: as :=
      insertAttr_append b.1 b.2 done (a :: as) hdone hsuf
    have h₁' : (((done ++ [b]) ++ a :: as).Pairwise fun x y => x.1 < y.1) := by
      rw [append_singleton_cons]
      refine List.pairwise_append.mpr ⟨(List.pairwise_append.mp h₁).1, ?_, ?_⟩
      · exact List.pairwise_cons.mpr ⟨hsuf, holds⟩
      · intro x hx y hy
        rcases List.mem_cons.mp hy with h | h
        · rw [h]; exact hdone x hx
        · exact pairwise_append_cross h₁ x hx y h
    have h₂' : (((done ++ [b]) ++ bs).Pairwise fun x y => x.1 < y.1) := by
      rw [append_singleton_cons]
      exact h₂
    have hrec := ih (done ++ [b]) tg ky cs h₁' h₂'
    simp only [mergeDiffAttrs, hnlt, hlt, if_false, if_true, applyMuts, applyMut,
      applyAt, applyOp, hins]
    simpa [append_singleton_cons] using hrec
  | case6 a as b bs hnlt hnlt' ih =>
    intro done tg ky cs h₁ h₂
    have heq : a.1 = b.1 := le_antisymm (not_lt.mp hnlt') (not_lt.mp hnlt)
    have hdone : ∀ x ∈ done, x.1 < b.1 := fun x hx => pairwise_append_cross h₂ x hx b (by simp)
    have h₂' : (((done ++ [b]) ++ bs).Pairwise fun x y => x.1 < y.1) := by
      rw [append_singleton_cons]
      exact h₂
    have h₁' : (((done ++ [b]) ++ as).Pairwise fun x y => x.1 < y.1) := by
      rw [append_singleton_cons]
      rcases List.pairwise_append.mp h₁ with ⟨hd, hca, hcross⟩
      rcases List.pairwise_cons.mp hca with ⟨ha, has⟩
      refine List.pairwise_append.mpr ⟨hd, ?_, ?_⟩
      · exact List.pairwise_cons.mpr ⟨fun x hx => heq ▸ ha x hx, has⟩
      · intro x hx y hy
        rcases List.mem_cons.mp hy with h | h
        · rw [h]; exact hdone x hx
        · exact hcross x hx y (by simp [h])
    by_cases hv : a.2 = b.2
    · have hab : a = b := Prod.ext heq hv
      have hrec := ih (done ++ [b]) tg ky cs h₁' h₂'
      simp only [mergeDiffAttrs, hnlt, hnlt', if_false, hv, if_true, List.nil_append]
      rw [hab]
      simpa [append_singleton_cons] using hrec
    · have hins : insertAttr b.1 b.2 (done ++ a :: as) = done ++ b :: as :=
        insertAttr_replace b.1 b.2 done as a (fun x hx => heq ▸ hdone x hx) heq
      have hrec := ih (done ++ [b]) tg ky cs h₁' h₂'
      simp only [mergeDiffAttrs, hnlt, hnlt', if_false, hv, applyMuts, applyMut,
        applyAt, applyOp, hins, List.singleton_append]
      simpa [append_singleton_cons] using hrec

/-! ## Child list round-trip lemmas -/

theorem applyMuts_replicate_remove (tg : String) (ky : Option String)
    (as' : List (String × String)) :
    ∀ (rest done : List Node),
      applyMuts (List.replicate rest.length ⟨[], .remove done.length⟩)
        (.element tg ky as' (done ++ rest)) = some (.element tg ky as' done) := by
  intro rest
  induction rest with
  | nil => intro done; simp [applyMuts]
  | cons r rest ih =>
    intro done
    simp only [List.length_cons, List.replicate, applyMuts, applyMut, applyAt, applyOp]
    rw [eraseIdx_append_self]
    exact ih done

theorem findKeyed_spec (k : Option String) :
    ∀ (l : List Node) (rc : Nat × Node), findKeyed k l = some rc →
      ∃ A B, l = A ++ rc.2 :: B ∧ A.length = rc.1 ∧ rc.2.key = k := by
  intro l
  induction l with
  | nil => intro rc h; simp [findKeyed] at h
  | cons c cs ih =>
    intro rc h
    by_cases hk : c.key = k
    · rw [findKeyed, if_pos hk] at h
      injection h with h
      exact ⟨[], cs, by rw [← h]; simp, by rw [← h]; simp, by rw [← h]; exact hk⟩
    · rw [findKeyed, if_neg hk] at h
      cases hf : findKeyed k cs with
      | none => rw [hf] at h; simp at h
      | some p =>
        rw [hf] at h
        injection h with h
        obtain ⟨A, B, hl, hA, hkey⟩ := ih p hf
        refine ⟨c :: A, B, ?_, ?_, ?_⟩
        · rw [← h, hl]
          simp
        · rw [← h]
          simp [hA]
        · rw [← h]
          exact hkey

theorem diffKeyed_roundtrip (tg : String) (ky : Option String)
    (as' : List (String × String)) :
    ∀ (news : List Node),
      (∀ n ∈ news, ∀ c : Node, Wf c → applyMuts (diffNode c n).1 c = some n) →
      ∀ (rest done : List Node), (∀ c ∈ rest, Wf c) →
        applyMuts (diffKeyed done.length rest news).1
            (.element tg ky as' (done ++ rest)) =
          some (.element tg ky as' (done ++ news)) := by
  intro news
  induction news with
  | nil =>
    intro _ rest done _
    simp only [diffKeyed]
    rw [applyMuts_replicate_remove]
    simp
  | cons n news ihn =>
    intro hn rest done hrest
    cases hf : findKeyed n.key rest with
    | none =>
      have hins : listInsertAt done.length n (done ++ rest) = done ++ n :: rest :=
        listInsertAt_append done rest n
      simp only [diffKeyed, hf, applyMuts, applyMut, applyAt, applyOp, hins]
      have := ihn (fun m hm c hc => hn m (by simp [hm]) c hc) rest (done ++ [n]) hrest
      simpa [append_singleton_cons] using this
    | some rc =>
      obtain ⟨A, B, hl, hA, hkey⟩ := findKeyed_spec n.key rest rc hf
      have hwf2 : Wf rc.2 := hrest rc.2 (by rw [hl]; exact List.mem_append_right A (by simp))
      have hmv : applyMuts (if rc.1 = 0 then ([] : List Mutation) else
            [⟨[], .moveBefore (done.length + rc.1) done.length⟩])
          (.element tg ky as' (done ++ rest)) =
          some (.element tg ky as' (done ++ rc.2 :: (A ++ B))) := by
        by_cases h0 : rc.1 = 0
        · have hAnil : A = [] := List.eq_nil_of_length_eq_zero (hA.trans h0)
          rw [if_pos h0, hl, hAnil]
          simp [applyMuts]
        · rw [if_neg h0]
          have hlen : done.length + rc.1 = (done ++ A).length := by simp [hA]
          simp only [applyMuts, applyMut, applyAt, applyOp]
          rw [hl, ← List.append_assoc, hlen, getElem?_append_self, eraseIdx_append_self]
          simp [List.append_assoc, listInsertAt_append, applyMuts]
      have hch : applyMuts ((diffNode rc.2 n).1.map (Mutation.prepend done.length))
          (.element tg ky as' (done ++ rc.2 :: (A ++ B))) =
          some (.element tg ky as' (done ++ n :: (A ++ B))) := by
        rw [applyMuts_localize, hn n (by simp) rc.2 hwf2]
        simp
      have herase : rest.eraseIdx rc.1 = A ++ B := by
        rw [hl, ← hA, eraseIdx_append_self]
      have hwfAB : ∀ c ∈ A ++ B, Wf c := by
        intro c hc
        apply hrest
        rw [hl]
        rcases List.mem_append.mp hc with h | h
        · exact List.mem_append_left _ h
        · exact List.mem_append_right _ (by simp [h])
      have hrec := ihn (fun m hm c hc => hn m (by simp [hm]) c hc) (A ++ B)
        (done ++ [n]) hwfAB
      simp only [diffKeyed, hf, herase, List.append_assoc, applyMuts_append, hmv, hch,
        Option.some_bind]
      simpa [append_singleton_cons] using hrec

theorem diffPositional_roundtrip (tg : String) (ky : Option String)
    (as' : List (String × String)) :
    ∀ (news : List Node),
      (∀ n ∈ news, ∀ c : Node, Wf c → applyMuts (diffNode c n).1 c = some n) →
      ∀ (olds done : List Node), (∀ c ∈ olds, Wf c) →
        applyMuts (diffPositional done.length olds news).1
            (.element tg ky as' (done ++ olds)) =
          some (.element tg ky as' (done ++ news)) := by
  intro news
  induction news with
  | nil =>
    intro _ olds done _
    simp only [diffPositional]
    rw [applyMuts_replicate_remove]
    simp
  | cons n news ihn =>
    intro hn olds done holds
    cases olds with
    | nil =>
      have hins : listInsertAt done.length n (done ++ ([] : List Node)) = done ++ n :: [] :=
        listInsertAt_append done [] n
      simp only [diffPositional, applyMuts, applyMut, applyAt, applyOp, hins]
      have := ihn (fun m hm c hc => hn m (by simp [hm]) c hc) [] (done ++ [n]) (by simp)
      simpa [append_singleton_cons] using this
    | cons o olds' =>
      have hch : applyMuts ((diffNode o n).1.map (Mutation.prepend done.length))
          (.element tg ky as' (done ++ o :: olds')) =
          some (.element tg ky as' (done ++ n :: olds')) := by
        rw [applyMuts_localize, hn n (by simp) o (holds o (by simp))]
        simp
      have hrec := ihn (fun m hm c hc => hn m (by simp [hm]) c hc) olds' (done ++ [n])
        (fun c hc => holds c (by simp [hc]))
      simp only [diffPositional, applyMuts_append, hch, Option.some_bind]
      simpa [append_singleton_cons] using hrec

theorem diffNode_roundtrip_aux :
    ∀ (N : Nat) (new : Node), sizeOf new ≤ N → ∀ old : Node, Wf old → Wf new →
      applyMuts (diffNode old new).1 old = some new := by
  intro N
  induction N with
  | zero =>
    intro new hsz
    exfalso
    cases new <;> simp at hsz
  | succ N ih =>
    intro new hsz old hwfo hwfn
    cases new with
    | text s' =>
      cases old with
      | text s =>
        by_cases h : s = s'
        · subst h
          simp [diffNode, applyMuts]
        · simp [diffNode, h, applyMuts, applyMut, applyAt, applyOp]
      | element tg ky as cs => simp [diffNode, applyMuts, applyMut, applyAt, applyOp]
      | placeholder => simp [diffNode, applyMuts, applyMut, applyAt, applyOp]
    | placeholder =>
      cases old <;> simp [diffNode, applyMuts, applyMut, applyAt, applyOp]
    | element tg' ky' as2 cs' =>
      cases hwfn with
      | element _ _ _ _ hs' hc' =>
      have hchild : ∀ n ∈ cs', ∀ c : Node, Wf c →
          applyMuts (diffNode c n).1 c = some n := by
        intro n hncs c hcwf
        have h1 : sizeOf n < sizeOf cs' := List.sizeOf_lt_of_mem hncs
        have h2 : sizeOf cs' < sizeOf (Node.element tg' ky' as2 cs') := by
          simp
        exact ih n (by omega) c hcwf (hc' n hncs)
      cases old with
      | text s => simp [diffNode, applyMuts, applyMut, applyAt, applyOp]
      | placeholder => simp [diffNode, applyMuts, applyMut, applyAt, applyOp]
      | element tg ky as cs =>
        cases hwfo with
        | element _ _ _ _ hs hc =>
        by_cases hg : tg = tg' ∧ ky = ky'
        · obtain ⟨htg, hky⟩ := hg
          subst htg
          subst hky
          have hattr : applyMuts (mergeDiffAttrs as as2) (.element tg ky as cs) =
              some (.element tg ky as2 cs) := by
            have := merge_roundtrip as as2 [] tg ky cs (by simpa using hs)
              (by simpa using hs')
            simpa using this
          simp only [diffNode, eq_self_iff_true, and_self, if_true]
          by_cases hk : (allKeyed cs && allKeyed cs') = true
          · by_cases hnd : (keysOf cs).Nodup ∧ (keysOf cs').Nodup
            · have hkd := diffKeyed_roundtrip tg ky as2 cs' hchild cs [] hc
              simp only [hk, if_true, hnd, applyMuts_append, hattr, Option.some_bind]
              simpa using hkd
            · have hpd := diffPositional_roundtrip tg ky as2 cs' hchild cs [] hc
              simp only [hk, if_true, hnd, if_false, applyMuts_append, hattr,
                Option.some_bind]
              simpa using hpd
          · have hpd := diffPositional_roundtrip tg ky as2 cs' hchild cs [] hc
            simp only [Bool.not_eq_true] at hk
            simp only [hk, Bool.false_eq_true, if_false, applyMuts_append, hattr,
              Option.some_bind]
            simpa using hpd
        · simp [diffNode, hg, applyMuts, applyMut, applyAt, applyOp]

/-! ## Idempotence helpers -/

theorem findKeyed_head (n : Node) (t : List Node) :
    findKeyed n.key (n :: t) = some (0, n) := by
  simp [findKeyed]

theorem diffKeyed_self :
    ∀ (l : List Node) (j : Nat), (∀ c ∈ l, (diffNode c c).1 = []) →
      (diffKeyed j l l).1 = [] := by
  intro l
  induction l with
  | nil => intro j _; simp [diffKeyed]
  | cons n t ih =>
    intro j h
    simp only [diffKeyed, findKeyed_head]
    simp [h n (by simp), ih (j + 1) fun c hc => h c (by simp [hc])]

theorem diffPositional_self :
    ∀ (l : List Node) (j : Nat), (∀ c ∈ l, (diffNode c c).1 = []) →
      (diffPositional j l l).1 = [] := by
  intro l
  induction l with
  | nil => intro j _; simp [diffPositional]
  | cons n t ih =>
    intro j h
    simp [diffPositional, h n (by simp), ih (j + 1) fun c hc => h c (by simp [hc])]

theorem diffNode_self_aux : ∀ (N : Nat) (t : Node), sizeOf t ≤ N →
    (diffNode t t).1 = [] := by
  intro N
  induction N with
  | zero =>
    intro t h
    exfalso
    cases t <;> simp at h
  | succ N ih =>
    intro t hsz
    cases t with
    | text s => simp [diffNode]
    | placeholder => simp [diffNode]
    | element tg ky as cs =>
      have hchild : ∀ c ∈ cs, (diffNode c c).1 = [] := by
        intro c hccs
        have h1 : sizeOf c < sizeOf cs := List.sizeOf_lt_of_mem hccs
        have h2 : sizeOf cs < sizeOf (Node.element tg ky as cs) := by simp
        exact ih c (by omega)
      simp only [diffNode, eq_self_iff_true, and_self, if_true, mergeDiffAttrs_self]
      by_cases hk : allKeyed cs = true
      · by_cases hnd : (keysOf cs).Nodup
        · simp [hk, hnd, diffKeyed_self cs 0 hchild]
        · simp [hk, hnd, diffPositional_self cs 0 hchild]
      · simp only [Bool.not_eq_true] at hk
        simp [hk, diffPositional_self cs 0 hchild]

theorem diffNode_self (t : Node) : (diffNode t t).1 = [] :=
  diffNode_self_aux (sizeOf t) t le_rfl

/-! ## Keyed reorder helpers -/

theorem keysOf_cons_of_key {n : Node} {t : List Node} {k : String} (hk : n.key = some k) :
    keysOf (n :: t) = k :: keysOf t := by
  simp [keysOf, List.filterMap_cons, hk]

theorem findKeyed_mem_nodup :
    ∀ (l : List Node) (n : Node), n ∈ l → allKeyed l = true → (keysOf l).Nodup →
      ∃ r, findKeyed n.key l = some (r, n) := by
  intro l
  induction l with
  | nil => intro n h; simp at h
  | cons c t ih =>
    intro n hmem hak hnd
    have hak2 := List.all_eq_true.mp hak
    obtain ⟨kc, hkc⟩ := Option.isSome_iff_exists.mp (hak2 c (by simp))
    have hakt : allKeyed t = true := by
      apply List.all_eq_true.mpr
      intro c' hc'
      exact hak2 c' (by simp [hc'])
    have hkeys : keysOf (c :: t) = kc :: keysOf t := keysOf_cons_of_key hkc
    by_cases hk : c.key = n.key
    · rcases List.mem_cons.mp hmem with h | h
      · refine ⟨0, ?_⟩
        rw [h]
        exact findKeyed_head c t
      · exfalso
        have hkn : n.key = some kc := hk ▸ hkc
        have hmemk : kc ∈ keysOf t := List.mem_filterMap.mpr ⟨n, h, hkn⟩
        rw [hkeys] at hnd
        exact (List.nodup_cons.mp hnd).1 hmemk
    · rcases List.mem_cons.mp hmem with h | h
      · exact absurd (by rw [h]) hk
      · have hnd' : (keysOf t).Nodup := by
          rw [hkeys] at hnd
          exact (List.nodup_cons.mp hnd).2
        obtain ⟨r, hr⟩ := ih n h hakt hnd'
        exact ⟨r + 1, by simp [findKeyed, hk, hr]⟩

theorem diffKeyed_perm_moves :
    ∀ (news rest : List Node) (j : Nat), List.Perm rest news → allKeyed rest = true →
      (keysOf rest).Nodup → (∀ c ∈ rest, (diffNode c c).1 = []) →
      ∀ m ∈ (diffKeyed j rest news).1, ∃ s d, m = ⟨[], .moveBefore s d⟩ := by
  intro news
  induction news with
  | nil =>
    intro rest j hperm _ _ _ m hm
    rw [List.perm_nil.mp hperm] at hm
    simp [diffKeyed] at hm
  | cons n news ih =>
    intro rest j hperm hak hnd hself m hm
    have hmem : n ∈ rest := hperm.mem_iff.mpr (by simp)
    obtain ⟨r, hr⟩ := findKeyed_mem_nodup rest n hmem hak hnd
    obtain ⟨A, B, hl, hA, hkey⟩ := findKeyed_spec n.key rest (r, n) hr
    have hA' : A.length = r := hA
    have hl' : rest = A ++ n :: B := hl
    have herase : rest.eraseIdx r = A ++ B := by
      rw [hl', ← hA']
      exact eraseIdx_append_self A B n
    have hsub : List.Sublist (A ++ B) rest := by
      rw [hl']
      exact (List.sublist_cons_self n B).append_left A
    have hperm' : List.Perm (A ++ B) news := by
      have h1 : List.Perm rest (n :: (A ++ B)) := by
        rw [hl']
        exact List.perm_middle
      exact (h1.symm.trans hperm).cons_inv
    have haksub : allKeyed (A ++ B) = true := by
      apply List.all_eq_true.mpr
      intro c hc
      exact List.all_eq_true.mp hak c (hsub.mem hc)
    have hndsub : (keysOf (A ++ B)).Nodup := hnd.sublist (hsub.filterMap Node.key)
    have hselfsub : ∀ c ∈ A ++ B, (diffNode c c).1 = [] := fun c hc => hself c (hsub.mem hc)
    have hdn : (diffNode n n).1 = [] := hself n hmem
    simp only [diffKeyed, hr, hdn, herase, List.map_nil, List.nil_append,
      List.mem_append] at hm
    rcases hm with hm | hm
    · by_cases h0 : r = 0
      · rw [if_pos h0] at hm
        simp at hm
      · rw [if_neg h0] at hm
        simp at hm
        exact ⟨j + r, j, by rw [hm]⟩
    · exact ih (A ++ B) (j + 1) hperm' haksub hndsub hselfsub m hm

/-! ## Claim theorems -/

/-- C1: for every pair of old/new Node trees accepted by the diff algorithm
(trees whose attribute sequences are canonical attribute maps), applying the
mutation sequence emitted by the diff engine to a model of the old tree
yields a tree structurally equal to the new tree. -/
theorem diff_roundtrip (old new : Node) (h₁ : Wf old) (h₂ : Wf new) :
    applyMuts (diffNode old new).1 old = some new :=
  diffNode_roundtrip_aux (sizeOf new) new le_rfl old h₁ h₂

/-- Witness for C1 at a concrete pair of trees. -/
theorem diff_roundtrip_witness :
    Wf (Node.element "div" none [("class", "a")] [.text "hello"]) ∧
    Wf (Node.element "div" none [("id", "b")] [.text "world", .placeholder]) ∧
    applyMuts
        (diffNode (Node.element "div" none [("class", "a")] [.text "hello"])
          (Node.element "div" none [("id", "b")] [.text "world", .placeholder])).1
        (Node.element "div" none [("class", "a")] [.text "hello"]) =
      some (Node.element "div" none [("id", "b")] [.text "world", .placeholder]) := by
  have h₁ : Wf (Node.element "div" none [("class", "a")] [.text "hello"]) := by
    refine Wf.element _ _ _ _ (by simp) ?_
    intro c hc
    simp at hc
    rw [hc]
    exact Wf.text _
  have h₂ : Wf (Node.element "div" none [("id", "b")] [.text "world", .placeholder]) := by
    refine Wf.element _ _ _ _ (by simp) ?_
    intro c hc
    simp at hc
    rcases hc with h | h <;> rw [h]
    · exact Wf.text _
    · exact Wf.placeholder
  exact ⟨h₁, h₂, diff_roundtrip _ _ h₁ h₂⟩

/-- C2: for every keyed child list, a pure reordering (a permutation of the
same keyed children, with unique keys) makes the diff engine emit only
MoveBefore operations for those children — in particular no CreateNode ever
recreates one of them. -/
theorem keyed_reorder_only_moves (tg : String) (ky : Option String)
    (as' : List (String × String)) (cs cs' : List Node)
    (hperm : List.Perm cs cs') (hak : allKeyed cs = true)
    (hnd : (keysOf cs).Nodup) :
    ∀ m ∈ (diffNode (.element tg ky as' cs) (.element tg ky as' cs')).1,
      ∃ s d, m = ⟨[], .moveBefore s d⟩ := by
  intro m hm
  have hak' : allKeyed cs' = true := by
    apply List.all_eq_true.mpr
    intro c hc
    exact List.all_eq_true.mp hak c (hperm.mem_iff.mpr hc)
  have hnd' : (keysOf cs').Nodup := ((hperm.filterMap Node.key).nodup_iff).mp hnd
  have hself : ∀ c ∈ cs, (diffNode c c).1 = [] := fun c _ => diffNode_self c
  simp only [diffNode, eq_self_iff_true, and_self, if_true, hak, hak',
    Bool.and_self, mergeDiffAttrs_self, List.nil_append] at hm
  rw [if_pos ⟨hnd, hnd'⟩] at hm
  exact diffKeyed_perm_moves cs' cs 0 hperm hak hnd hself m hm

/-- Witness for C2: reordering the keyed children `[a, b, c]` to
`[c, a, b]`. -/
theorem keyed_reorder_only_moves_witness :
    List.Perm [sampleA, sampleB, sampleC] [sampleC, sampleA, sampleB] ∧
    allKeyed [sampleA, sampleB, sampleC] = true ∧
    (keysOf [sampleA, sampleB, sampleC]).Nodup ∧
    ∀ m ∈ (diffNode (.element "ul" none [] [sampleA, sampleB, sampleC])
        (.element "ul" none [] [sampleC, sampleA, sampleB])).1,
      ∃ s d, m = ⟨[], .moveBefore s d⟩ := by
  have hperm : List.Perm [sampleA, sampleB, sampleC] [sampleC, sampleA, sampleB] :=
    ((List.Perm.swap sampleA sampleC [sampleB]).trans
      (List.Perm.cons sampleA (List.Perm.swap sampleB sampleC []))).symm
  have hak : allKeyed [sampleA, sampleB, sampleC] = true := by
    simp [allKeyed, sampleA, sampleB, sampleC, Node.key]
  have hnd : (keysOf [sampleA, sampleB, sampleC]).Nodup := by
    simp [keysOf, sampleA, sampleB, sampleC, Node.key]
  exact ⟨hperm, hak, hnd, keyed_reorder_only_moves "ul" none [] _ _ hperm hak hnd⟩

/-- C3: diffing any tree against a structurally identical tree (same values,
same keys) emits an empty mutation list. -/
theorem diff_identical_empty (t : Node) : (diffNode t t).1 = [] :=
  diffNode_self t

/-- C4: a sibling list with a duplicate explicit key makes the diff engine
report `DuplicateKey` and fall back to positional matching for that list;
the diff is a total function, so a mutation list is still produced, without
panicking. -/
theorem duplicate_key_fallback (tg : String) (ky : Option String)
    (as' : List (String × String)) (cs cs' : List Node)
    (h1 : allKeyed cs = true) (h2 : allKeyed cs' = true)
    (hdup : ¬ ((keysOf cs).Nodup ∧ (keysOf cs').Nodup)) :
    (diffNode (.element tg ky as' cs) (.element tg ky as' cs')).1 =
        (diffPositional 0 cs cs').1 ∧
    DiffError.duplicateKey ∈
      (diffNode (.element tg ky as' cs) (.element tg ky as' cs')).2 := by
  constructor
  · simp [diffNode, h1, h2, hdup, mergeDiffAttrs_self]
  · simp [diffNode, h1, h2, hdup]

/-- Witness for C4: the sibling list `[{key:"x"}, {key:"x"}]`. -/
theorem duplicate_key_fallback_witness :
    allKeyed [sampleX, sampleX] = true ∧
    ¬ ((keysOf [sampleX, sampleX]).Nodup ∧ (keysOf [sampleX, sampleX]).Nodup) ∧
    ((diffNode (.element "ul" none [] [sampleX, sampleX])
        (.element "ul" none [] [sampleX, sampleX])).1 =
      (diffPositional 0 [sampleX, sampleX] [sampleX, sampleX]).1 ∧
    DiffError.duplicateKey ∈
      (diffNode (.element "ul" none [] [sampleX, sampleX])
        (.element "ul" none [] [sampleX, sampleX])).2) := by
  have h1 : allKeyed [sampleX, sampleX] = true := by
    simp [allKeyed, sampleX, Node.key]
  have hdup : ¬ ((keysOf [sampleX, sampleX]).Nodup ∧
      (keysOf [sampleX, sampleX]).Nodup) := by
    simp [keysOf, sampleX, Node.key]
  exact ⟨h1, hdup, duplicate_key_fallback "ul" none [] _ _ h1 h1 hdup⟩

/-! ## Hook slot lemmas -/

theorem runHooks_fresh :
    ∀ (calls : List (HTy × HVal)) (st : ScopeStore),
      runHooks calls st st.slots.length =
        .ok ((List.range' st.slots.length calls.length).zip (calls.map Prod.snd),
          ⟨st.slots ++ calls.map Prod.snd⟩) := by
  intro calls
  induction calls with
  | nil => intro st; simp [runHooks]
  | cons c calls ih =>
    intro st
    have hnone : st.slots[st.slots.length]? = none := by simp
    have hrec := ih ⟨st.slots ++ [c.2]⟩
    simp only [List.length_append, List.length_cons, List.length_nil, Nat.zero_add] at hrec
    simp only [runHooks, useHook, hnone, hrec, List.map_cons, List.length_cons,
      List.range'_succ, List.zip_cons_cons]
    simp

theorem runHooks_stable :
    ∀ (calls2 calls1 : List (HTy × HVal)) (pre : List HVal),
      (∀ c ∈ calls1, c.2.ty = c.1) →
      calls2.map Prod.fst = calls1.map Prod.fst →
      runHooks calls2 ⟨pre ++ calls1.map Prod.snd⟩ pre.length =
        .ok ((List.range' pre.length calls2.length).zip (calls1.map Prod.snd),
          ⟨pre ++ calls1.map Prod.snd⟩) := by
  intro calls2
  induction calls2 with
  | nil =>
    intro calls1 pre hty hsig
    have hnil : calls1 = [] := by
      cases calls1 with
      | nil => rfl
      | cons c t => simp at hsig
    subst hnil
    simp [runHooks]
  | cons c2 t2 ih =>
    intro calls1 pre hty hsig
    cases calls1 with
    | nil => simp at hsig
    | cons c1 t1 =>
      simp only [List.map_cons] at hsig
      injection hsig with h1 hsig'
      have hget : (pre ++ (c1.2 :: t1.map Prod.snd))[pre.length]? = some c1.2 :=
        getElem?_append_self pre _ c1.2
      have hty1 : c1.2.ty = c2.1 := (hty c1 (by simp)).trans h1.symm
      have hrec := ih t1 (pre ++ [c1.2]) (fun c hc => hty c (by simp [hc])) hsig'
      simp only [List.length_append, List.length_cons, List.length_nil, Nat.zero_add,
        append_singleton_cons] at hrec
      simp only [runHooks, useHook, List.map_cons, hget, hty1, if_true, hrec,
        List.length_cons, List.range'_succ, List.zip_cons_cons]

/-- C5: calling `use_hook` N times in the same order across two renders of a
scope returns, at each position, the same underlying slot handle on both
renders, with the slot storage unchanged by the second render; the init
values run (are stored) only on the first render, and the second render
returns the values stored by the first. -/
theorem hook_slot_stability (prog1 prog2 : List (HTy × HVal))
    (hty : ∀ c ∈ prog1, c.2.ty = c.1)
    (hsig : prog2.map Prod.fst = prog1.map Prod.fst) :
    renderScope prog1 ⟨[]⟩ =
      .ok ((List.range prog1.length).zip (prog1.map Prod.snd),
        ⟨prog1.map Prod.snd⟩) ∧
    renderScope prog2 ⟨prog1.map Prod.snd⟩ =
      .ok ((List.range prog2.length).zip (prog1.map Prod.snd),
        ⟨prog1.map Prod.snd⟩) := by
  constructor
  · have := runHooks_fresh prog1 ⟨[]⟩
    simpa [renderScope, List.range_eq_range'] using this
  · have := runHooks_stable prog2 prog1 [] hty hsig
    simpa [renderScope, List.range_eq_range'] using this

/-- Witness for C5: a two-hook program rendered twice; the second render's
init values differ and are ignored. -/
theorem hook_slot_stability_witness :
    (∀ c ∈ [(HTy.tNat, HVal.vNat 1), (HTy.tStr, HVal.vStr "s")], c.2.ty = c.1) ∧
    ([(HTy.tNat, HVal.vNat 9), (HTy.tStr, HVal.vStr "z")].map Prod.fst =
      [(HTy.tNat, HVal.vNat 1), (HTy.tStr, HVal.vStr "s")].map Prod.fst) ∧
    (renderScope [(HTy.tNat, HVal.vNat 1), (HTy.tStr, HVal.vStr "s")] ⟨[]⟩ =
      .ok ((List.range [(HTy.tNat, HVal.vNat 1), (HTy.tStr, HVal.vStr "s")].length).zip
          ([(HTy.tNat, HVal.vNat 1), (HTy.tStr, HVal.vStr "s")].map Prod.snd),
        ⟨[(HTy.tNat, HVal.vNat 1), (HTy.tStr, HVal.vStr "s")].map Prod.snd⟩) ∧
    renderScope [(HTy.tNat, HVal.vNat 9), (HTy.tStr, HVal.vStr "z")]
        ⟨[(HTy.tNat, HVal.vNat 1), (HTy.tStr, HVal.vStr "s")].map Prod.snd⟩ =
      .ok ((List.range [(HTy.tNat, HVal.vNat 9), (HTy.tStr, HVal.vStr "z")].length).zip
          ([(HTy.tNat, HVal.vNat 1), (HTy.tStr, HVal.vStr "s")].map Prod.snd),
        ⟨[(HTy.tNat, HVal.vNat 1), (HTy.tStr, HVal.vStr "s")].map Prod.snd⟩)) := by
  have hty : ∀ c ∈ [(HTy.tNat, HVal.vNat 1), (HTy.tStr, HVal.vStr "s")],
      c.2.ty = c.1 := by decide
  have hsig : [(HTy.tNat, HVal.vNat 9), (HTy.tStr, HVal.vStr "z")].map Prod.fst =
      [(HTy.tNat, HVal.vNat 1), (HTy.tStr, HVal.vStr "s")].map Prod.fst := by decide
  exact ⟨hty, hsig, hook_slot_stability _ _ hty hsig⟩

/-- C6: requesting a hook type that differs from the stored slot's type
fails with `HookTypeMismatch`; the failure is fatal only to that scope's
render (the scope's output is `failed`, standing for an empty render with
the error surfaced), while every other scope of the pass renders exactly as
it would alone — the pass is total and never halts the rest of the tree. -/
theorem hook_type_mismatch_isolated (st : ScopeStore) (cursor : Nat) (req : HTy)
    (init : HVal) (v : HVal) (hv : st.slots[cursor]? = some v) (hne : v.ty ≠ req) :
    useHook st cursor req init = .error .hookTypeMismatch ∧
    (∀ (scopes : List ScopeDef) (j : Nat),
      (renderPass scopes)[j]? = (scopes[j]?).map renderOne) ∧
    (∀ sd : ScopeDef, renderScope sd.prog sd.store = .error .hookTypeMismatch →
      renderOne sd = .failed .hookTypeMismatch) := by
  refine ⟨?_, ?_, ?_⟩
  · simp [useHook, hv, hne]
  · intro scopes j
    simp [renderPass]
  · intro sd h
    simp [renderOne, h]

/-- Witness for C6: a slot holding a Nat value accessed requesting a
String. -/
theorem hook_type_mismatch_isolated_witness :
    (ScopeStore.mk [HVal.vNat 0]).slots[0]? = some (HVal.vNat 0) ∧
    (HVal.vNat 0).ty ≠ HTy.tStr ∧
    (useHook ⟨[HVal.vNat 0]⟩ 0 HTy.tStr (HVal.vStr "") =
        .error .hookTypeMismatch ∧
    (∀ (scopes : List ScopeDef) (j : Nat),
      (renderPass scopes)[j]? = (scopes[j]?).map renderOne) ∧
    (∀ sd : ScopeDef, renderScope sd.prog sd.store = .error .hookTypeMismatch →
      renderOne sd = .failed .hookTypeMismatch)) :=
  ⟨rfl, by decide,
    hook_type_mismatch_isolated ⟨[HVal.vNat 0]⟩ 0 HTy.tStr (HVal.vStr "")
      (HVal.vNat 0) rfl (by decide)⟩

/-! ## Scheduler pass lemmas -/

theorem passFrom_spec :
    ∀ (ss : List SchedScope) (i j : Nat) (s : SchedScope), ss[j]? = some s →
      (passFrom i ss).2[j]? = some { s with state := (runScope (i + j) s).2 } ∧
      List.Sublist (runScope (i + j) s).1 (passFrom i ss).1 := by
  intro ss
  induction ss with
  | nil => intro i j s h; simp at h
  | cons a t ih =>
    intro i j s h
    cases j with
    | zero =>
      have ha : a = s := by simpa using h
      subst ha
      constructor
      · simp [passFrom]
      · simp only [passFrom, Nat.add_zero]
        exact List.sublist_append_left _ _
    | succ j =>
      have h' : t[j]? = some s := by simpa using h
      obtain ⟨h1, h2⟩ := ih (i + 1) j s h'
      have hidx : i + 1 + j = i + (j + 1) := by omega
      rw [hidx] at h1 h2
      constructor
      · simpa [passFrom] using h1
      · refine h2.trans ?_
        have hsub := List.sublist_append_right (runScope i a).1 (passFrom (i + 1) t).1
        simpa [passFrom] using hsub

theorem markDirtyAt_get :
    ∀ (ss : List SchedScope) (i : Nat),
      (markDirtyAt ss i)[i]? = (ss[i]?).map fun s => { s with state := .dirty } := by
  intro ss
  induction ss with
  | nil => intro i; simp [markDirtyAt]
  | cons a t ih =>
    intro i
    cases i with
    | zero => simp [markDirtyAt]
    | succ i => simpa [markDirtyAt] using ih i

/-- C7: in a scheduler pass where some dirty sibling suspends, every other
dirty sibling that completes still has its mutations committed in that same
pass; the suspended sibling's subtree is substituted by a `Placeholder`
mutation, its state becomes `Suspended`, and when its async work resolves
and re-marks it dirty, it is `Dirty` for the next pass. -/
theorem suspense_nonblocking (scopes : List SchedScope) (i j pend : Nat)
    (si sj : SchedScope) (ms : List Mutation)
    (hi : scopes[i]? = some si) (hsi : si.state = .dirty)
    (hri : si.render = .suspends pend)
    (hj : scopes[j]? = some sj) (hsj : sj.state = .dirty)
    (hrj : sj.render = .completed ms) :
    List.Sublist ms (schedulerPass scopes).1 ∧
    Mutation.mk [i] (.replaceWith .placeholder) ∈ (schedulerPass scopes).1 ∧
    (schedulerPass scopes).2[i]? = some { si with state := .suspended pend } ∧
    (markDirtyAt (schedulerPass scopes).2 i)[i]? =
      some { si with state := .dirty } := by
  have hruni : runScope i si = ([⟨[i], .replaceWith .placeholder⟩], .suspended pend) := by
    simp [runScope, hsi, hri]
  have hrunj : runScope j sj = (ms, .clean) := by
    simp [runScope, hsj, hrj]
  obtain ⟨hi1, hi2⟩ := passFrom_spec scopes 0 i si hi
  obtain ⟨hj1, hj2⟩ := passFrom_spec scopes 0 j sj hj
  rw [Nat.zero_add] at hi1 hi2 hj1 hj2
  rw [hruni] at hi1 hi2
  rw [hrunj] at hj2
  simp only at hi1 hi2 hj2
  refine ⟨?_, ?_, ?_, ?_⟩
  · simpa [schedulerPass] using hj2
  · have hmem := List.singleton_sublist.mp hi2
    simpa [schedulerPass] using hmem
  · simpa [schedulerPass] using hi1
  · rw [markDirtyAt_get]
    simp only [schedulerPass]
    rw [hi1]
    rfl

/-- Witness for C7: three dirty siblings where the middle one suspends; the
first and third still commit mutations in the same pass. -/
theorem suspense_nonblocking_witness :
    ([(⟨.dirty, .completed [⟨[0], .setText "first"⟩]⟩ : SchedScope),
        ⟨.dirty, .suspends 1⟩,
        ⟨.dirty, .completed [⟨[2], .setText "third"⟩]⟩][1]? =
      some ⟨.dirty, .suspends 1⟩) ∧
    (ScopeSt.dirty = ScopeSt.dirty) ∧
    ([(⟨.dirty, .completed [⟨[0], .setText "first"⟩]⟩ : SchedScope),
        ⟨.dirty, .suspends 1⟩,
        ⟨.dirty, .completed [⟨[2], .setText "third"⟩]⟩][2]? =
      some ⟨.dirty, .completed [⟨[2], .setText "third"⟩]⟩) ∧
    (List.Sublist [⟨[2], .setText "third"⟩]
      (schedulerPass [⟨.dirty, .completed [⟨[0], .setText "first"⟩]⟩,
        ⟨.dirty, .suspends 1⟩,
        ⟨.dirty, .completed [⟨[2], .setText "third"⟩]⟩]).1 ∧
    Mutation.mk [1] (.replaceWith .placeholder) ∈
      (schedulerPass [⟨.dirty, .completed [⟨[0], .setText "first"⟩]⟩,
        ⟨.dirty, .suspends 1⟩,
        ⟨.dirty, .completed [⟨[2], .setText "third"⟩]⟩]).1 ∧
    (schedulerPass [⟨.dirty, .completed [⟨[0], .setText "first"⟩]⟩,
        ⟨.dirty, .suspends 1⟩,
        ⟨.dirty, .completed [⟨[2], .setText "third"⟩]⟩]).2[1]? =
      some ⟨.suspended 1, .suspends 1⟩ ∧
    (markDirtyAt (schedulerPass [⟨.dirty, .completed [⟨[0], .setText "first"⟩]⟩,
        ⟨.dirty, .suspends 1⟩,
        ⟨.dirty, .completed [⟨[2], .setText "third"⟩]⟩]).2 1)[1]? =
      some ⟨.dirty, .suspends 1⟩) :=
  ⟨rfl, rfl, rfl,
    suspense_nonblocking _ 1 2 1 ⟨.dirty, .suspends 1⟩
      ⟨.dirty, .completed [⟨[2], .setText "third"⟩]⟩ [⟨[2], .setText "third"⟩]
      rfl rfl rfl rfl rfl rfl⟩

/-! ## Arena lemmas -/

theorem retired_mono :
    ∀ (ops : List ArenaOp) (st : GenStore) (g : Nat), g ∈ st.retired →
      g ∈ (applyArenaOps st ops).retired := by
  intro ops
  induction ops with
  | nil => intro st g h; exact h
  | cons op ops ih =>
    intro st g h
    apply ih
    cases op with
    | allocateNode g' v => simpa [applyArenaOp] using h
    | retire g' =>
      simp only [applyArenaOp, retireGeneration, List.mem_cons]
      exact Or.inr h

/-- C8: after `retire_generation(g)`, every later dereference of a handle
allocated in generation `g` — across any sequence of further allocations and
retirements — fails with `StaleHandle` rather than undefined behavior, while
a dereference of a handle from any other generation is unaffected by the
retirement. -/
theorem stale_handle_after_retire (st : GenStore) (g : Nat) (h h' : Handle)
    (ops : List ArenaOp) (hg : h.gen = g) (hg' : h'.gen ≠ g) :
    deref (applyArenaOps (retireGeneration st g) ops) h = .error .staleHandle ∧
    deref (retireGeneration st g) h' = deref st h' := by
  constructor
  · have hmem : h.gen ∈ (applyArenaOps (retireGeneration st g) ops).retired :=
      retired_mono ops _ h.gen (by simp [retireGeneration, hg])
    simp [deref, hmem]
  · by_cases hmem : h'.gen ∈ st.retired
    · simp [deref, retireGeneration, hmem, hg']
    · simp [deref, retireGeneration, hmem, hg']

/-- Witness for C8 at a concrete store, with a later allocation and a later
retirement of a different generation. -/
theorem stale_handle_after_retire_witness :
    ((⟨0, 0⟩ : Handle).gen = 0) ∧ ((⟨1, 0⟩ : Handle).gen ≠ 0) ∧
    (deref (applyArenaOps (retireGeneration ⟨[["n0"]], []⟩ 0)
        [.allocateNode 0 "n1", .retire 2]) ⟨0, 0⟩ = .error .staleHandle ∧
    deref (retireGeneration ⟨[["n0"]], []⟩ 0) ⟨1, 0⟩ =
      deref ⟨[["n0"]], []⟩ ⟨1, 0⟩) :=
  ⟨rfl, by decide,
    stale_handle_after_retire ⟨[["n0"]], []⟩ 0 ⟨0, 0⟩ ⟨1, 0⟩
      [.allocateNode 0 "n1", .retire 2] rfl (by decide)⟩

/-! ## Scheduler state machine lemmas -/

theorem rendering_iff_current :
    ∀ (s : SchedSys), SchedReachable s → ∀ i : Nat,
      (s.states i = .rendering ↔ s.current = some i) := by
  intro s hs
  induction hs with
  | init =>
    intro i
    simp [initSys]
  | step hr hstep ih =>
    intro i
    cases hstep with
    | extMarkDirty i' hcond =>
      dsimp only
      by_cases hii : i = i'
      · subst hii
        rw [Function.update_same]
        constructor
        · intro h
          exact absurd h (by simp)
        · intro h
          have hrend := (ih i).mpr h
          rcases hcond with hc | ⟨n, hc⟩ <;> rw [hrend] at hc <;> simp at hc
      · rw [Function.update_noteq hii]
        exact ih i
    | beginRender i' hc hd =>
      dsimp only
      by_cases hii : i = i'
      · subst hii
        rw [Function.update_same]
        simp
      · rw [Function.update_noteq hii]
        constructor
        · intro h
          have h2 := (ih i).mp h
          rw [hc] at h2
          simp at h2
        · intro h
          exact absurd (Option.some.inj h).symm hii
    | commitRender i' hc =>
      dsimp only
      by_cases hii : i = i'
      · subst hii
        rw [Function.update_same]
        simp
      · rw [Function.update_noteq hii]
        constructor
        · intro h
          have h2 := (ih i).mp h
          rw [hc] at h2
          exact absurd (Option.some.inj h2).symm hii
        · intro h
          simp at h
    | suspendRender i' n hc =>
      dsimp only
      by_cases hii : i = i'
      · subst hii
        rw [Function.update_same]
        simp
      · rw [Function.update_noteq hii]
        constructor
        · intro h
          have h2 := (ih i).mp h
          rw [hc] at h2
          exact absurd (Option.some.inj h2).symm hii
        · intro h
          simp at h

/-- C9: in every reachable state of the scheduler's state machine at most
one scope is in the `Rendering` state; rendering and diffing segments are
steps of one sequential transition relation, so concurrency is interleaving
of whole segments, never parallel execution. -/
theorem at_most_one_rendering (s : SchedSys) (hs : SchedReachable s) (i j : Nat)
    (hi : s.states i = .rendering) (hj : s.states j = .rendering) : i = j := by
  have h1 := (rendering_iff_current s hs i).mp hi
  have h2 := (rendering_iff_current s hs j).mp hj
  exact Option.some.inj (h1.symm.trans h2)

/-- Witness for C9: the reachable state in which scope 0 has been marked
dirty and is being rendered. -/
theorem at_most_one_rendering_witness :
    SchedReachable ⟨some 0, Function.update
      (Function.update (fun _ => ScopeSt.clean) 0 ScopeSt.dirty) 0 ScopeSt.rendering⟩ ∧
    (Function.update (Function.update (fun _ : Nat => ScopeSt.clean) 0 ScopeSt.dirty) 0
        ScopeSt.rendering) 0 = ScopeSt.rendering ∧
    (0 : Nat) = 0 := by
  have h1 : SchedStep initSys ⟨none, Function.update (fun _ => ScopeSt.clean) 0
      ScopeSt.dirty⟩ :=
    SchedStep.extMarkDirty initSys 0 (Or.inl rfl)
  have h2 : SchedStep ⟨none, Function.update (fun _ => ScopeSt.clean) 0 ScopeSt.dirty⟩
      ⟨some 0, Function.update
        (Function.update (fun _ => ScopeSt.clean) 0 ScopeSt.dirty) 0 ScopeSt.rendering⟩ :=
    SchedStep.beginRender _ 0 rfl (by simp)
  have hreach : SchedReachable ⟨some 0, Function.update
      (Function.update (fun _ => ScopeSt.clean) 0 ScopeSt.dirty) 0 ScopeSt.rendering⟩ :=
    SchedReachable.step (SchedReachable.step SchedReachable.init h1) h2
  have hi : (Function.update (Function.update (fun _ : Nat => ScopeSt.clean) 0
      ScopeSt.dirty) 0 ScopeSt.rendering) 0 = ScopeSt.rendering := by simp
  exact ⟨hreach, hi, at_most_one_rendering _ hreach 0 0 hi hi⟩

/-- C10: in every feature configuration the facade's `core` re-export and
`prelude` module are present, the `hooks`, `router`, `ssr`, `web` and
`desktop` modules exist exactly when their feature flag is enabled, and the
prelude exposes the hook items unconditionally — also in builds where the
`hooks` module itself is absent. -/
theorem facade_feature_surface (f : Features) :
    (facade f).coreExport = true ∧
    (facade f).preludeMod = true ∧
    (facade f).hooksMod = f.hooks ∧
    (facade f).routerMod = f.router ∧
    (facade f).ssrMod = f.ssr ∧
    (facade f).webMod = f.web ∧
    (facade f).desktopMod = f.desktop ∧
    (facade f).preludeCoreItems = true ∧
    (facade f).preludeRsxItems = true ∧
    (facade f).preludeHookItems = true ∧
    (facade f).preludeHtmlItems = true ∧
    (facade { f with hooks := false }).hooksMod = false ∧
    (facade { f with hooks := false }).preludeHookItems = true := by
  simp [facade]

end DioxusCore
